import Mathlib

/-!
Verification development for the magi-assistant-discord recording core.

We give a shallow embedding of the components the specification talks
about — the OGG muxer, the ffmpeg process registry with its spawn circuit
breaker, the VAD gate's transcript de-duplication and stream lifecycle,
the burst tracker, and the offline hydration reconstructor — and prove
the spec's testable properties about these embeddings.

Conventions: wall-clock timestamps are `Int` milliseconds (JS
`Date.now()` values); byte and frame counts are `Nat`; fallible
operations return `Option`.
-/

namespace Magi

/-! ## OggMuxer (src/voice/ogg-muxer.ts), abstract page-level model

The muxer state tracks the page sequence number, the granule position,
the `finalized` flag, and the list of pages written to the sink so far.
`writeOpusPacket` and `finalize` follow the source line by line; the
byte-level page layout is modelled separately below for the CRC claim.
-/

structure MuxPage where
  headerType : Nat
  granulePos : Nat
  payloadLen : Nat
  deriving Repr, DecidableEq

structure MuxState where
  pageSeqNo : Nat
  granulePos : Nat
  finalized : Bool
  pages : List MuxPage
  deriving Repr, DecidableEq

/-- `samplesPerFrame = 960` (20ms at 48kHz) in the muxer. -/
def samplesPerFrame : Nat := 960

/-- `writePage`: appends one page to the sink, bumping `pageSeqNo`. -/
def muxWritePage (s : MuxState) (payloadLen headerType granule : Nat) : MuxState :=
  { s with
    pageSeqNo := s.pageSeqNo + 1
    pages := s.pages ++ [⟨headerType, granule, payloadLen⟩] }

/-- Constructor: writes the OpusHead page (BOS flag 0x02, 19 bytes) and the
OpusTags comment page (flag 0x00). -/
def muxInit : MuxState :=
  let s : MuxState := { pageSeqNo := 0, granulePos := 0, finalized := false, pages := [] }
  let s := muxWritePage s 19 0x02 0
  muxWritePage s 34 0x00 0

/-- `writeOpusPacket`: no-op once finalized; otherwise advances the granule
position by one frame and writes one audio page (header type 0). -/
def writeOpusPacket (s : MuxState) (payloadLen : Nat) : MuxState :=
  if s.finalized then s
  else
    let g := s.granulePos + samplesPerFrame
    muxWritePage { s with granulePos := g } payloadLen 0x00 g

/-- `finalize()`: no-op if already finalized; otherwise marks finalized and
writes one empty EOS page (header type 0x04). -/
def muxFinalize (s : MuxState) : MuxState :=
  if s.finalized then s
  else muxWritePage { s with finalized := true } 0 0x04 s.granulePos

/-- External calls a muxer can receive after construction. -/
inductive MuxEv where
  | pkt (payloadLen : Nat)
  | fin
  deriving Repr, DecidableEq

def muxStep (s : MuxState) (e : MuxEv) : MuxState :=
  match e with
  | .pkt n => writeOpusPacket s n
  | .fin => muxFinalize s

def muxRun (evs : List MuxEv) : MuxState :=
  evs.foldl muxStep muxInit

/-- Number of end-of-stream pages (header type 0x04) written so far. -/
def eosCount (s : MuxState) : Nat :=
  (s.pages.filter (fun p => p.headerType == 0x04)).length

/-- Inductive invariant: the EOS page count tracks the `finalized` flag. -/
def MuxInv (s : MuxState) : Prop :=
  eosCount s = (if s.finalized then 1 else 0)

/-! ## Process registry (src/stt/process-registry.ts)

State for a single `(sessionId, userId)` key. `failures` is the stored
array of spawn-failure timestamps; `current` the live resampler (by id);
`killed` the log of resamplers that have been killed; `listener` whether
an early-exit listener is attached; `lastSpawnAt` the `spawnTime`
captured by that listener.
-/

def BREAKER_WINDOW_MS : Int := 60000

def BREAKER_MAX_FAILURES : Nat := 3

structure RegState where
  failures : List Int
  current : Option Nat
  nextId : Nat
  killed : List Nat
  listener : Bool
  lastSpawnAt : Int
  deriving Repr, DecidableEq

/-- `(this.spawnFailures.get(key) ?? []).filter((t) => now - t < BREAKER_WINDOW_MS)` -/
def recentFailures (now : Int) (fs : List Int) : List Int :=
  fs.filter (fun t => now - t < BREAKER_WINDOW_MS)

/-- `ProcessRegistry.spawn` for one key: filter the failure window and store
it back; if at least `BREAKER_MAX_FAILURES` remain the spawn is refused
(`null`); otherwise kill any existing resampler, create a new one, attach
the early-exit listener, and return it. -/
def spawn (s : RegState) (now : Int) : Option Nat × RegState :=
  let fs := recentFailures now s.failures
  if BREAKER_MAX_FAILURES ≤ fs.length then
    (none, { s with failures := fs })
  else
    (some s.nextId,
      { failures := fs
        current := some s.nextId
        nextId := s.nextId + 1
        killed := s.killed ++ s.current.toList
        listener := true
        lastSpawnAt := now })

/-- The process's pcm-output `close` event at time `t`: the process is dead
(so `get` will evict it); the `once` listener detaches after firing and
records a failure iff `Date.now() - spawnTime < 2000`. -/
def onProcessClose (s : RegState) (t : Int) : RegState :=
  let failures :=
    if s.listener && decide (t - s.lastSpawnAt < 2000) then s.failures ++ [t]
    else s.failures
  { s with failures := failures, current := none, listener := false }

/-! ## VAD gate transcript de-duplication (src/stt/vad-gate.ts, handleTranscript) -/

structure TEvent where
  streamSequence : Nat
  segmentStart : Int
  deriving Repr, DecidableEq

structure DedupState where
  rotating : Bool
  streamSequence : Nat
  lastNewStreamFirstResult : Option Int
  deriving Repr, DecidableEq

/-- `VadGate.handleTranscript`: returns whether the event is emitted to the
reconciler, and the updated dedup state. Mirrors the source: old-stream
events during rotation are dropped when within ±2s of the new stream's
first result; the first current-stream result is recorded. -/
def handleTranscript (s : DedupState) (e : TEvent) : Bool × DedupState :=
  let dropped :=
    s.rotating && decide (e.streamSequence < s.streamSequence) &&
      (match s.lastNewStreamFirstResult with
       | some t0 => decide ((e.segmentStart - t0).natAbs ≤ 2000)
       | none => false)
  if dropped then (false, s)
  else
    let s' :=
      if e.streamSequence == s.streamSequence && s.lastNewStreamFirstResult == none then
        { s with lastNewStreamFirstResult := some e.segmentStart }
      else s
    (true, s')

/-! ## OggMuxer byte-level page layout and CRC (src/voice/ogg-muxer.ts)

Bytes are `Nat` values `< 256`; a page is a `List Nat`. The CRC is the
OGG CRC-32 with polynomial 0x04C11DB7, table-driven exactly as in
`ogg_crc32`. All 32-bit arithmetic is explicit `% 2^32`.
-/

def OGG_POLY : Nat := 0x04C11DB7

/-- One iteration of the table generator's inner loop:
`crc = (crc & 0x80000000) ? ((crc << 1) ^ 0x04C11DB7) >>> 0 : (crc << 1) >>> 0`. -/
def crcShiftStep (crc : Nat) : Nat :=
  if 2 ^ 31 ≤ crc then ((crc * 2) % 2 ^ 32) ^^^ OGG_POLY
  else (crc * 2) % 2 ^ 32

/-- `CRC_TABLE[i]`: eight shift steps applied to `i << 24`. -/
def crcTableEntry (i : Nat) : Nat :=
  crcShiftStep^[8] ((i % 256) * 2 ^ 24)

/-- One byte of CRC accumulation:
`crc = (CRC_TABLE[((crc >>> 24) ^ b) & 0xff] ^ (crc << 8)) >>> 0`. -/
def crcByteStep (crc b : Nat) : Nat :=
  crcTableEntry ((crc / 2 ^ 24 ^^^ b) % 256) ^^^ (crc * 256 % 2 ^ 32)

/-- `ogg_crc32(header, data)` over the concatenated byte sequence. -/
def ogg_crc32 (bytes : List Nat) : Nat :=
  bytes.foldl crcByteStep 0

/-- Little-endian 32-bit encoding (`writeUInt32LE`). -/
def le32 (n : Nat) : List Nat :=
  [n % 256, n / 2 ^ 8 % 256, n / 2 ^ 16 % 256, n / 2 ^ 24 % 256]

/-- Little-endian 64-bit encoding (`writeBigUInt64LE`). -/
def le64 (n : Nat) : List Nat :=
  [n % 256, n / 2 ^ 8 % 256, n / 2 ^ 16 % 256, n / 2 ^ 24 % 256,
   n / 2 ^ 32 % 256, n / 2 ^ 40 % 256, n / 2 ^ 48 % 256, n / 2 ^ 56 % 256]

/-- Decode the first four bytes as a little-endian 32-bit value. -/
def readLE32 (bs : List Nat) : Nat :=
  match bs with
  | b0 :: b1 :: b2 :: b3 :: _ => b0 + b1 * 2 ^ 8 + b2 * 2 ^ 16 + b3 * 2 ^ 24
  | _ => 0

/-- `const segments = Math.max(1, Math.ceil(data.length / 255))`. -/
def segCount (len : Nat) : Nat :=
  max 1 ((len + 254) / 255)

/-- The segment-table loop: `n` lumps of 255 with the remainder last. -/
def segTableAux : Nat → Nat → List Nat
  | 0, _ => []
  | n + 1, remaining =>
    if 255 ≤ remaining then 255 :: segTableAux n (remaining - 255)
    else remaining :: segTableAux n 0

def segTable (len : Nat) : List Nat :=
  segTableAux (segCount len) len

/-- The first 22 header bytes: capture pattern `OggS`, version 0, header
type, 64-bit granule position, serial number, page sequence number. -/
def pageHeaderPre (headerType granulePos serial seqNo : Nat) : List Nat :=
  [79, 103, 103, 83, 0, headerType] ++ le64 granulePos ++ le32 serial ++ le32 seqNo

/-- Full page header with a given CRC field value, number-of-segments
byte, and segment table. -/
def pageHeader (headerType granulePos serial seqNo crc dataLen : Nat) : List Nat :=
  pageHeaderPre headerType granulePos serial seqNo ++ le32 crc ++
    [segCount dataLen] ++ segTable dataLen

/-- `OggMuxer.writePage`: build the header with the CRC field zeroed,
compute the CRC over header-plus-payload, patch the CRC field, emit
header followed by payload. -/
def writePageBytes (data : List Nat) (headerType granulePos serial seqNo : Nat) : List Nat :=
  let hz := pageHeader headerType granulePos serial seqNo 0 data.length
  let crc := ogg_crc32 (hz ++ data)
  pageHeader headerType granulePos serial seqNo crc data.length ++ data

/-- Replace the four CRC bytes (offsets 22–25) of a page prefix with zero. -/
def zeroCrcField (page : List Nat) : List Nat :=
  page.take 22 ++ [0, 0, 0, 0] ++ page.drop 26

/-! ## Hydration reconstructor (scripts/hydrate-audio.ts, hydrateTrack)

Audio constants: 48kHz, 2 channels, 2 bytes per sample; 960-sample
frames, so 3840 bytes per frame and 192000 bytes per second. Timestamps
are `Int` milliseconds; the decoded PCM is abstracted by its length in
bytes, and writes are recorded as chunks (silence of n bytes, or the
decoded byte range `[startByte, endByte)`).
-/

def BYTES_PER_FRAME : Nat := 3840

def BYTES_PER_SECOND : Nat := 192000

def MAX_SILENCE_BYTES : Int := 300 * 192000

structure BurstRow where
  burstStart : Int
  startFrameOffset : Nat
  endFrameOffset : Option Nat
  deriving Repr, DecidableEq

inductive Chunk where
  | silence (bytes : Nat)
  | audio (startByte endByte : Nat)
  deriving Repr, DecidableEq

/-- The silence computation for one burst, mirroring the source:
`targetPositionBytes = Math.floor((burstStartMs - firstPacketAt) / 1000 * BYTES_PER_SECOND)`
(exact for integral milliseconds, hence `d * 192`), aligned down to a
frame boundary with JS `%` (truncating remainder), minus the current
output position, clamped to `MAX_SILENCE_BYTES` unless `--no-clamp`. -/
def silencePlanned (firstPacketAt : Int) (noClamp : Bool) (cur : Nat) (b : BurstRow) : Int :=
  let d := b.burstStart - firstPacketAt
  let targetPositionBytes : Int := d * 192
  let alignedTarget := targetPositionBytes - Int.tmod targetPositionBytes 3840
  let silence0 := alignedTarget - (cur : Int)
  if !noClamp && silence0 > MAX_SILENCE_BYTES then MAX_SILENCE_BYTES else silence0

/-- One iteration of the hydration loop: write the silence gap (if
positive), then the burst's frame span clamped to the decoded bounds,
skipping the span when `start_frame_offset` exceeds the decoded frame
count. Returns the new output position and the chunks written. -/
def processBurst (firstPacketAt : Int) (decodedLen : Nat) (noClamp : Bool) (cur : Nat)
    (b : BurstRow) : Nat × List Chunk :=
  let totalDecodedFrames := decodedLen / BYTES_PER_FRAME
  let silenceBytes := silencePlanned firstPacketAt noClamp cur b
  let cur1 := if silenceBytes > 0 then cur + silenceBytes.toNat else cur
  let chunks1 := if silenceBytes > 0 then [Chunk.silence silenceBytes.toNat] else []
  let startByte := b.startFrameOffset * BYTES_PER_FRAME
  let endFrameOffset := b.endFrameOffset.getD totalDecodedFrames
  let endByte := endFrameOffset * BYTES_PER_FRAME
  if totalDecodedFrames < b.startFrameOffset then (cur1, chunks1)
  else
    let clampedStart := min startByte decodedLen
    let clampedEnd := min endByte decodedLen
    if clampedStart < clampedEnd then
      (cur1 + (clampedEnd - clampedStart), chunks1 ++ [Chunk.audio clampedStart clampedEnd])
    else (cur1, chunks1)

/-- The whole per-track loop over bursts in start order. -/
def hydrateLoop (firstPacketAt : Int) (decodedLen : Nat) (noClamp : Bool) :
    Nat → List BurstRow → Nat × List Chunk
  | cur, [] => (cur, [])
  | cur, b :: rest =>
    let (cur1, cs) := processBurst firstPacketAt decodedLen noClamp cur b
    let (cur2, rest') := hydrateLoop firstPacketAt decodedLen noClamp cur1 rest
    (cur2, cs ++ rest')

/-- Modelled from the spec's words only (for comparison with the code's
`silencePlanned`): "compute the target absolute byte offset as (burst
wall-clock start − track first-frame time) converted to bytes at the
fixed sample rate/channel/bit-depth, aligned down to a whole-frame
boundary". -/
def specTargetBytes (firstPacketAt : Int) (b : BurstRow) : Int :=
  3840 * ((b.burstStart - firstPacketAt) * 192000 / 1000 / 3840)

/-! ## Burst tracker + frame counter (src/voice/burst-tracker.ts and
src/voice/recorder.ts)

One speaker's track and burst state, driven by the events the session
manager can deliver: an accepted audio frame, speaking start/end, the
max-burst-duration guard firing, and teardown (which, per
session-manager.ts, closes the user's burst before closing the track).
`accepted` counts the frames that passed the `track.closed` guard in the
recorder's data handler; the handler increments `frameCount` on exactly
those frames. Burst records are kept in creation order; `openB` is the
tracker's map entry (the index of the burst it would close). -/

structure BurstRec where
  startOff : Nat
  endOff : Option Nat
  deriving Repr, DecidableEq

structure TrState where
  trackOpen : Bool
  frameCount : Nat
  accepted : Nat
  bursts : List BurstRec
  openB : Option Nat
  deriving Repr, DecidableEq

inductive TrEv where
  | frame
  | speakStart
  | speakEnd
  | guard
  | teardown
  deriving Repr, DecidableEq

/-- `closeBurst(burstId, now, endFrameOffset)`: set the end offset of the
record the tracker's map entry points at (by its index `i`). -/
def closeRecAt : List BurstRec → Nat → Nat → List BurstRec
  | [], _, _ => []
  | r :: rest, 0, off => ⟨r.startOff, some off⟩ :: rest
  | r :: rest, i + 1, off => r :: closeRecAt rest i off

def trStep (s : TrState) (e : TrEv) : TrState :=
  match e with
  | .frame =>
    if s.trackOpen then
      { s with frameCount := s.frameCount + 1, accepted := s.accepted + 1 }
    else s
  | .speakStart =>
    match s.openB with
    | some _ => s
    | none =>
      if s.trackOpen then
        { s with bursts := s.bursts ++ [⟨s.frameCount, none⟩], openB := some s.bursts.length }
      else s
  | .speakEnd =>
    match s.openB with
    | some i =>
      let off := if s.trackOpen then s.frameCount else 0
      { s with bursts := closeRecAt s.bursts i off, openB := none }
    | none => s
  | .guard =>
    match s.openB with
    | some i =>
      let off := if s.trackOpen then s.frameCount else 0
      let s1 := { s with bursts := closeRecAt s.bursts i off, openB := none }
      if s.trackOpen then
        { s1 with bursts := s1.bursts ++ [⟨s.frameCount, none⟩], openB := some s1.bursts.length }
      else s1
    | none => s
  | .teardown =>
    let s1 :=
      match s.openB with
      | some i =>
        let off := if s.trackOpen then s.frameCount else 0
        { s with bursts := closeRecAt s.bursts i off, openB := none }
      | none => s
    { s1 with trackOpen := false }

/-- A freshly subscribed speaker: open track, zero frames, no bursts. -/
def trInit : TrState :=
  { trackOpen := true, frameCount := 0, accepted := 0, bursts := [], openB := none }

def trRun (evs : List TrEv) : TrState :=
  evs.foldl trStep trInit

/-- Burst records chained between a lower bound and the current frame
counter: starts are ≥ the running bound, closed records have
`start ≤ end` and pass their end on as the next bound, and an open
record is last with `start ≤ ub`. -/
def Chained : Nat → List BurstRec → Nat → Prop
  | lb, [], ub => lb ≤ ub
  | lb, b :: rest, ub =>
    lb ≤ b.startOff ∧
    (match b.endOff with
     | some e => b.startOff ≤ e ∧ Chained e rest ub
     | none => rest = [] ∧ b.startOff ≤ ub)

/-- Inductive invariant for the tracker model: the map entry (if any)
points at the last burst record, which is the only open one; with no map
entry every record is closed. -/
def TrInv (s : TrState) : Prop :=
  s.frameCount = s.accepted ∧
  Chained 0 s.bursts s.frameCount ∧
  (∀ i, s.openB = some i →
    s.trackOpen = true ∧
    ∃ front st, s.bursts = front ++ [⟨st, none⟩] ∧ i = front.length ∧
      ∀ b ∈ front, b.endOff.isSome) ∧
  (s.openB = none → ∀ b ∈ s.bursts, b.endOff.isSome)

/-! ## VAD gate stream lifecycle (src/stt/vad-gate.ts)

Streams are identified by their sequence number; `streams` lists every
stream the gate has created together with its `open` flag (newest
first). `current` and `rotating` are the gate's two references.
`destroyG` additionally reports the observable effects of `destroy()`:
the speech-duration emission and each `close()` call. -/

structure GState where
  streams : List (Nat × Bool)
  current : Option Nat
  rotating : Option Nat
  seq : Nat
  speechStart : Option Int
  destroyed : Bool
  deriving Repr

def streamOpen (l : List (Nat × Bool)) (i : Nat) : Bool :=
  l.any (fun e => e.1 == i && e.2)

def closeStreamIn (l : List (Nat × Bool)) (i : Nat) : List (Nat × Bool) :=
  l.map (fun e => if e.1 == i then (e.1, false) else e)

def refOpen (s : GState) (r : Option Nat) : Bool :=
  match r with
  | some i => streamOpen s.streams i
  | none => false

/-- `openNewStream`: increment the sequence and create a fresh open
stream as the current one. -/
def openNewStream (s : GState) : GState :=
  { s with
    seq := s.seq + 1
    current := some (s.seq + 1)
    streams := (s.seq + 1, true) :: s.streams }

inductive GEff where
  | speechDur
  | closeCall (i : Nat)
  deriving Repr, DecidableEq

/-- `VadGate.destroy()`: emit any still-accruing speech duration, close
the current and rotating streams if open, clear both references. -/
def destroyG (s : GState) : GState × List GEff :=
  let emits : List GEff :=
    match s.speechStart with
    | some _ => [.speechDur]
    | none => []
  let curEff : List GEff :=
    match s.current with
    | some i => if streamOpen s.streams i then [.closeCall i] else []
    | none => []
  let rotEff : List GEff :=
    match s.rotating with
    | some j => if streamOpen s.streams j then [.closeCall j] else []
    | none => []
  let streams1 :=
    match s.current with
    | some i => closeStreamIn s.streams i
    | none => s.streams
  let streams2 :=
    match s.rotating with
    | some j => closeStreamIn streams1 j
    | none => streams1
  ({ s with
      destroyed := true, speechStart := none,
      streams := streams2, current := none, rotating := none },
   emits ++ curEff ++ rotEff)

inductive GEv where
  | speakStartEv (t : Int)
  | speakEndEv
  | openNew
  | rotate
  | overlapExpire
  | closeCurrent
  | backendClose (i : Nat)
  | destroyEv
  deriving Repr, DecidableEq

def gStep (s : GState) (e : GEv) : GState :=
  match e with
  | .speakStartEv t =>
    let s := { s with speechStart := some t }
    if refOpen s s.current then s else openNewStream s
  | .speakEndEv => { s with speechStart := none }
  | .openNew =>
    -- the cooldown-deferred open re-checks `!this.currentStream?.open`
    if refOpen s s.current then s else openNewStream s
  | .rotate =>
    -- `checkRotation` / the rotation interval only rotate while
    -- `this.currentStream?.open`
    if refOpen s s.current then
      let streams1 :=
        match s.rotating with
        | some j => closeStreamIn s.streams j
        | none => s.streams
      { s with
        streams := (s.seq + 1, true) :: streams1
        rotating := s.current
        current := some (s.seq + 1)
        seq := s.seq + 1 }
    else s
  | .overlapExpire =>
    match s.rotating with
    | some j => { s with streams := closeStreamIn s.streams j, rotating := none }
    | none => s
  | .closeCurrent =>
    match s.current with
    | some i => { s with streams := closeStreamIn s.streams i, current := none }
    | none => s
  | .backendClose i => { s with streams := closeStreamIn s.streams i }
  | .destroyEv => (destroyG s).1

def gInit : GState :=
  { streams := [], current := none, rotating := none, seq := 0,
    speechStart := none, destroyed := false }

def gRun (evs : List GEv) : GState :=
  evs.foldl gStep gInit

/-- Inductive invariant: every open stream is referenced by `current` or
`rotating`; stream ids are distinct and bounded by `seq`. -/
def GInv (s : GState) : Prop :=
  (∀ e ∈ s.streams, e.2 = true → some e.1 = s.current ∨ some e.1 = s.rotating) ∧
  (s.streams.map Prod.fst).Nodup ∧
  (∀ e ∈ s.streams, e.1 ≤ s.seq)

/-! ## Idempotent teardown (src/voice/recorder.ts closeUserTrack,
src/stt/ffmpeg-resampler.ts kill) -/

structure RecTrack where
  closed : Bool
  frameCount : Nat
  deriving Repr, DecidableEq

inductive RecEff where
  | destroyStream
  | finalizeMux
  | endWriteStream
  | persistTrackEnd
  deriving Repr, DecidableEq

/-- `SessionRecorder.closeUserTrack`: the map entry for the speaker (or
`none`), returning the new entry and the observable effects. A missing
or already-closed track returns immediately; otherwise the stream is
destroyed, the muxer finalized, the write stream ended, the end time
persisted, and the entry deleted. -/
def closeUserTrack (tr : Option RecTrack) : Option RecTrack × List RecEff :=
  match tr with
  | none => (none, [])
  | some t =>
    if t.closed then (some t, [])
    else (none, [.destroyStream, .finalizeMux, .endWriteStream, .persistTrackEnd])

structure Resampler where
  alive : Bool
  deriving Repr, DecidableEq

inductive KillEff where
  | sigterm
  deriving Repr, DecidableEq

/-- `FfmpegResampler.kill()`: returns immediately when not alive;
otherwise clears the alive flag and sends the termination signal. -/
def resamplerKill (r : Resampler) : Resampler × List KillEff :=
  if r.alive then ({ alive := false }, [.sigterm]) else (r, [])

/-! # Theorems -/

/-! ## Muxer state lemmas -/

theorem eosCount_muxWritePage (s : MuxState) (n ht g : Nat) :
    eosCount (muxWritePage s n ht g) =
      eosCount s + (if ht == 0x04 then 1 else 0) := by
  simp only [eosCount, muxWritePage, List.filter_append]
  by_cases h : ht == 0x04 <;> simp [h]

theorem muxInv_init : MuxInv muxInit := by
  simp [MuxInv, muxInit, eosCount, muxWritePage]

theorem muxInv_step (s : MuxState) (e : MuxEv) (h : MuxInv s) : MuxInv (muxStep s e) := by
  cases e with
  | pkt n =>
    simp only [muxStep, writeOpusPacket]
    by_cases hf : s.finalized
    · simpa [hf]
    · simp only [MuxInv, eosCount, muxWritePage, List.filter_append, List.length_append, hf,
        if_false] at h ⊢
      simp at h ⊢
      exact h
  | fin =>
    simp only [muxStep, muxFinalize]
    by_cases hf : s.finalized
    · simpa [hf]
    · simp only [MuxInv, eosCount, muxWritePage, List.filter_append, List.length_append, hf,
        if_false] at h ⊢
      simp at h ⊢
      exact h

theorem muxInv_foldl (evs : List MuxEv) (s : MuxState) (h : MuxInv s) :
    MuxInv (evs.foldl muxStep s) := by
  induction evs generalizing s with
  | nil => exact h
  | cons e rest ih => exact ih _ (muxInv_step s e h)

theorem muxInv_run (evs : List MuxEv) : MuxInv (muxRun evs) :=
  muxInv_foldl evs muxInit muxInv_init

theorem muxFinalize_finalized (s : MuxState) : (muxFinalize s).finalized = true := by
  by_cases h : s.finalized <;> simp [muxFinalize, muxWritePage, h]

/-- C7: after `finalize()` has been called once on a muxer that has seen
any sequence of packet writes and finalize calls, exactly one
end-of-stream page has been written, and the muxer is permanently inert:
`writeOpusPacket` leaves the whole state (sink pages, granule position,
page sequence number) unchanged, and a second `finalize()` is a no-op. -/
theorem claim_C7 (evs : List MuxEv) :
    eosCount (muxFinalize (muxRun evs)) = 1 ∧
    (∀ n, writeOpusPacket (muxFinalize (muxRun evs)) n = muxFinalize (muxRun evs)) ∧
    muxFinalize (muxFinalize (muxRun evs)) = muxFinalize (muxRun evs) := by
  have hinv2 : MuxInv (muxFinalize (muxRun evs)) := muxInv_step _ .fin (muxInv_run evs)
  have hfin : (muxFinalize (muxRun evs)).finalized = true := muxFinalize_finalized _
  refine ⟨?_, ?_, ?_⟩
  · rw [MuxInv, hfin] at hinv2
    simpa using hinv2
  · intro n
    generalize muxFinalize (muxRun evs) = t at hfin ⊢
    simp [writeOpusPacket, hfin]
  · generalize muxFinalize (muxRun evs) = t at hfin ⊢
    simp [muxFinalize, hfin]

/-! ## Circuit breaker -/

/-- C2: with at least `BREAKER_MAX_FAILURES` failure timestamps inside the
rolling 60-second window at time `now`, `spawn` is refused: it returns
`null` and neither kills nor replaces the existing process. At a time
`later` when fewer than 3 failures remain inside the window, `spawn`
kills any existing process for the key, starts a new subprocess and
returns it. -/
theorem claim_C2 (s : RegState) (now later : Int)
    (hopen : BREAKER_MAX_FAILURES ≤ (recentFailures now s.failures).length)
    (hclosed : (recentFailures later s.failures).length < BREAKER_MAX_FAILURES) :
    (spawn s now).1 = none ∧
    (spawn s now).2.current = s.current ∧
    (spawn s now).2.killed = s.killed ∧
    (spawn s later).1 = some s.nextId ∧
    (spawn s later).2.current = some s.nextId ∧
    (spawn s later).2.killed = s.killed ++ s.current.toList := by
  have h2 : ¬ BREAKER_MAX_FAILURES ≤ (recentFailures later s.failures).length :=
    Nat.not_le.mpr hclosed
  refine ⟨?_, ?_, ?_, ?_, ?_, ?_⟩ <;> simp [spawn, hopen, h2]

/-- C2 witness: three failures at 0s, 1s, 2s block a spawn at 30s; at 70s
the window has drained and the spawn succeeds, killing resampler 7. -/
theorem claim_C2_witness :
    BREAKER_MAX_FAILURES ≤ (recentFailures 30000 [0, 1000, 2000]).length ∧
    (recentFailures 70000 [0, 1000, 2000]).length < BREAKER_MAX_FAILURES ∧
    (spawn ⟨[0, 1000, 2000], some 7, 8, [], true, 0⟩ 30000).1 = none ∧
    (spawn ⟨[0, 1000, 2000], some 7, 8, [], true, 0⟩ 70000).1 = some 8 ∧
    (spawn ⟨[0, 1000, 2000], some 7, 8, [], true, 0⟩ 70000).2.killed = [7] :=
  ⟨by decide, by decide,
   (claim_C2 ⟨[0, 1000, 2000], some 7, 8, [], true, 0⟩ 30000 70000 (by decide) (by decide)).1,
   (claim_C2 ⟨[0, 1000, 2000], some 7, 8, [], true, 0⟩ 30000 70000 (by decide) (by decide)).2.2.2.1,
   ((claim_C2 ⟨[0, 1000, 2000], some 7, 8, [], true, 0⟩ 30000 70000 (by decide)
      (by decide)).2.2.2.2.2).trans (by decide)⟩

/-! ## Transcript de-duplication -/

/-- C4: during a rotation overlap (`rotatingStream` set), an event from an
older stream whose segment start is within ±2s of the new stream's first
result is discarded; an old-stream event outside that window is emitted;
every current-stream event is emitted, as is any event arriving before
the new stream's first result is known. -/
theorem claim_C4 (s : DedupState) (e : TEvent) (t0 : Int) :
    (s.rotating = true → e.streamSequence < s.streamSequence →
      s.lastNewStreamFirstResult = some t0 →
      (((e.segmentStart - t0).natAbs ≤ 2000 → (handleTranscript s e).1 = false) ∧
       (2000 < (e.segmentStart - t0).natAbs → (handleTranscript s e).1 = true))) ∧
    (e.streamSequence = s.streamSequence → (handleTranscript s e).1 = true) ∧
    (s.lastNewStreamFirstResult = none → (handleTranscript s e).1 = true) := by
  refine ⟨fun hrot hlt hlast => ⟨fun hin => ?_, fun hout => ?_⟩, fun heq => ?_, fun hnone => ?_⟩
  · simp [handleTranscript, hrot, hlt, hlast, hin]
  · have hni : ¬ (e.segmentStart - t0).natAbs ≤ 2000 := by omega
    simp [handleTranscript, hlast, hni]
  · have hnl : ¬ e.streamSequence < s.streamSequence := by omega
    simp [handleTranscript, hnl]
  · simp [handleTranscript, hnone]

/-- C4 witness: with current sequence 5 and the new stream's first result
at t=10000ms, the old-stream (sequence 4) event at 11000ms is dropped,
the old-stream event at 20000ms is emitted, and a current-stream event is
emitted. -/
theorem claim_C4_witness :
    (handleTranscript ⟨true, 5, some 10000⟩ ⟨4, 11000⟩).1 = false ∧
    (handleTranscript ⟨true, 5, some 10000⟩ ⟨4, 20000⟩).1 = true ∧
    (handleTranscript ⟨true, 5, some 10000⟩ ⟨5, 11000⟩).1 = true :=
  ⟨((claim_C4 ⟨true, 5, some 10000⟩ ⟨4, 11000⟩ 10000).1 rfl (by decide) rfl).1 (by decide),
   ((claim_C4 ⟨true, 5, some 10000⟩ ⟨4, 20000⟩ 10000).1 rfl (by decide) rfl).2 (by decide),
   (claim_C4 ⟨true, 5, some 10000⟩ ⟨5, 11000⟩ 0).2.1 rfl⟩

/-! ## Idempotent teardown -/

/-- C9: a second close/destroy is observably a no-op. A second
`closeUserTrack` leaves the map entry unchanged and performs no stream
destroy, muxer finalize, write-stream end or persistence write; a second
`FfmpegResampler.kill` sends no second termination signal; a second
`VadGate.destroy` emits no second speech-duration event and closes no
stream, leaving the state unchanged. -/
theorem claim_C9 :
    (∀ tr : Option RecTrack,
      closeUserTrack (closeUserTrack tr).1 = ((closeUserTrack tr).1, [])) ∧
    (∀ r : Resampler, resamplerKill (resamplerKill r).1 = ((resamplerKill r).1, [])) ∧
    (∀ s : GState, destroyG (destroyG s).1 = ((destroyG s).1, [])) := by
  refine ⟨fun tr => ?_, fun r => ?_, fun s => ?_⟩
  · match tr with
    | none => rfl
    | some t =>
      by_cases h : t.closed <;> simp [closeUserTrack, h]
  · by_cases h : r.alive <;> simp [resamplerKill, h]
  · simp [destroyG]

/-! ## Max-duration guard -/

theorem closeRecAt_last (front : List BurstRec) (st ub : Nat) :
    closeRecAt (front ++ [⟨st, none⟩]) front.length ub = front ++ [⟨st, some ub⟩] := by
  induction front with
  | nil => rfl
  | cons a l ih => simp [closeRecAt, ih]

/-- C6: when the max-burst-duration guard fires with an open burst and a
live track, the burst is closed at the current frame offset and a new
burst is opened in the same step whose start offset equals the closed
burst's end offset — both are the current `frameCount`, leaving no gap. -/
theorem claim_C6 (s : TrState) (front : List BurstRec) (st : Nat)
    (hb : s.bursts = front ++ [⟨st, none⟩]) (hi : s.openB = some front.length)
    (ht : s.trackOpen = true) :
    trStep s .guard =
      { s with
        bursts := (front ++ [⟨st, some s.frameCount⟩]) ++ [⟨s.frameCount, none⟩],
        openB := some (front.length + 1) } := by
  simp [trStep, hi, hb, ht, closeRecAt_last]

/-- C6 witness: one frame, speaking starts (burst opens at offset 1), a
second frame arrives, then the guard fires: the burst closes at offset 2
and a new burst opens at offset 2. -/
theorem claim_C6_witness :
    trStep (trRun [TrEv.frame, TrEv.speakStart, TrEv.frame]) TrEv.guard =
      { trackOpen := true, frameCount := 2, accepted := 2,
        bursts := [⟨1, some 2⟩, ⟨2, none⟩], openB := some 1 } :=
  (claim_C6 (trRun [TrEv.frame, TrEv.speakStart, TrEv.frame]) [] 1
    (by decide) (by decide) (by decide)).trans (by decide)

/-! ## Hydration alignment -/

theorem alignedTarget_eq (fpa : Int) (b : BurstRow) (hd : 0 ≤ b.burstStart - fpa) :
    (b.burstStart - fpa) * 192 - Int.tmod ((b.burstStart - fpa) * 192) 3840 =
      specTargetBytes fpa b := by
  have key1 : (b.burstStart - fpa) * 192000 / 1000 = (b.burstStart - fpa) * 192 := by
    rw [show (b.burstStart - fpa) * 192000 = (b.burstStart - fpa) * 192 * 1000 by ring]
    exact Int.mul_ediv_cancel _ (by norm_num)
  have ht192 : (0 : Int) ≤ (b.burstStart - fpa) * 192 := mul_nonneg hd (by norm_num)
  have htm : Int.tmod ((b.burstStart - fpa) * 192) 3840 =
      ((b.burstStart - fpa) * 192) % 3840 := Int.tmod_eq_emod ht192 (by norm_num)
  rw [specTargetBytes, key1, htm]
  omega

/-- C3: the silence the reconstructor plans before a burst equals the
spec's target — (burst start − first-frame time) at 192000 bytes/s,
aligned down to a whole 3840-byte frame — minus the current output
position, clamped per gap to 300 seconds of audio unless `--no-clamp`;
and the concrete scenario: a single burst 5s after `first_packet_at`
(at epoch 0) mapped to frames [0,100) over a 100-frame decode yields
exactly 5s of silence then the 100-frame span, 1344000 bytes = exactly
7 seconds. -/
theorem claim_C3 :
    (∀ (fpa : Int) (cur : Nat) (b : BurstRow), 0 ≤ b.burstStart - fpa →
      silencePlanned fpa false cur b =
        min (specTargetBytes fpa b - (cur : Int)) MAX_SILENCE_BYTES ∧
      silencePlanned fpa true cur b = specTargetBytes fpa b - (cur : Int)) ∧
    (hydrateLoop 0 (100 * 3840) false 0 [⟨0 + 5000, 0, some 100⟩] =
        (1344000, [Chunk.silence 960000, Chunk.audio 0 384000]) ∧
      (1344000 : Nat) = 7 * 192000) := by
  constructor
  · intro fpa cur b hd
    have halign := alignedTarget_eq fpa b hd
    constructor
    · simp only [silencePlanned, halign, Bool.not_false, Bool.true_and]
      split_ifs with hc
      · simp only [decide_eq_true_eq, MAX_SILENCE_BYTES] at hc ⊢
        omega
      · simp only [decide_eq_true_eq, MAX_SILENCE_BYTES] at hc ⊢
        omega
    · simp only [silencePlanned, halign, Bool.not_true, Bool.false_and, Bool.false_eq_true,
        if_false]
  · exact ⟨by decide, by norm_num⟩

/-- C3 witness: the general silence formula applied at `first_packet_at
= 0`, current position 0, burst start 5000ms. -/
theorem claim_C3_witness :
    (0 : Int) ≤ (⟨5000, 0, some 100⟩ : BurstRow).burstStart - 0 ∧
    silencePlanned 0 false 0 ⟨5000, 0, some 100⟩ =
      min (specTargetBytes 0 ⟨5000, 0, some 100⟩ - (0 : Int)) MAX_SILENCE_BYTES ∧
    hydrateLoop 0 (100 * 3840) false 0 [⟨0 + 5000, 0, some 100⟩] =
      (1344000, [Chunk.silence 960000, Chunk.audio 0 384000]) :=
  ⟨by decide, (claim_C3.1 0 0 ⟨5000, 0, some 100⟩ (by decide)).1, claim_C3.2.1⟩

/-! ## Unclosed-burst fallback -/

/-- C10: a burst whose `end_frame_offset` is null is processed exactly as
if its end offset were the total decoded frame count, and (when its
start offset lies inside the decoded data) its audio span extends to the
last whole decoded frame — the burst is neither skipped nor an error. -/
theorem claim_C10 (fpa : Int) (len : Nat) (noClamp : Bool) (cur : Nat) (b : BurstRow)
    (hend : b.endFrameOffset = none) (hs : b.startFrameOffset < len / BYTES_PER_FRAME) :
    processBurst fpa len noClamp cur b =
      processBurst fpa len noClamp cur
        ⟨b.burstStart, b.startFrameOffset, some (len / BYTES_PER_FRAME)⟩ ∧
    ((processBurst fpa len noClamp cur b).2).getLast? =
      some (Chunk.audio (b.startFrameOffset * BYTES_PER_FRAME)
        (len / BYTES_PER_FRAME * BYTES_PER_FRAME)) := by
  obtain ⟨bs, so, eo⟩ := b
  simp only at hend hs
  subst hend
  refine ⟨rfl, ?_⟩
  simp only [BYTES_PER_FRAME] at hs ⊢
  have h1 : ¬ (len / 3840 < so) := by omega
  have hle : len / 3840 * 3840 ≤ len := Nat.div_mul_le_self len 3840
  have hmul : so * 3840 < len / 3840 * 3840 := by omega
  have hminS : min (so * 3840) len = so * 3840 := Nat.min_eq_left (by omega)
  have hminE : min (len / 3840 * 3840) len = len / 3840 * 3840 := Nat.min_eq_left hle
  simp only [processBurst, BYTES_PER_FRAME, Option.getD, h1, if_false, hminS, hminE, hmul,
    if_true]
  simp [List.getLast?_concat]

/-- C10 witness: an unclosed burst (null end) starting at frame 2 of a
100-frame decode keeps its audio through the last decoded frame. -/
theorem claim_C10_witness :
    (⟨5000, 2, none⟩ : BurstRow).endFrameOffset = none ∧
    (⟨5000, 2, none⟩ : BurstRow).startFrameOffset < 384000 / BYTES_PER_FRAME ∧
    ((processBurst 0 384000 false 0 ⟨5000, 2, none⟩).2).getLast? =
      some (Chunk.audio (2 * BYTES_PER_FRAME) (384000 / BYTES_PER_FRAME * BYTES_PER_FRAME)) :=
  ⟨rfl, by decide, (claim_C10 0 384000 false 0 ⟨5000, 2, none⟩ rfl (by decide)).2⟩

/-! ## Burst-tracker invariants -/

theorem chained_mono (lb : Nat) (bs : List BurstRec) (ub ub' : Nat)
    (h : Chained lb bs ub) (hle : ub ≤ ub') : Chained lb bs ub' := by
  induction bs generalizing lb with
  | nil =>
    simp only [Chained] at h ⊢
    omega
  | cons b rest ih =>
    simp only [Chained] at h ⊢
    obtain ⟨h1, h2⟩ := h
    refine ⟨h1, ?_⟩
    cases heo : b.endOff with
    | some e =>
      rw [heo] at h2
      exact ⟨h2.1, ih _ h2.2⟩
    | none =>
      rw [heo] at h2
      exact ⟨h2.1, le_trans h2.2 hle⟩

theorem chained_append_open (bs : List BurstRec) (lb ub : Nat)
    (h : Chained lb bs ub) (hall : ∀ b ∈ bs, b.endOff.isSome) :
    Chained lb (bs ++ [⟨ub, none⟩]) ub := by
  induction bs generalizing lb with
  | nil =>
    simp only [Chained, List.nil_append] at h ⊢
    exact ⟨h, by simp⟩
  | cons b rest ih =>
    simp only [Chained, List.cons_append] at h ⊢
    obtain ⟨h1, h2⟩ := h
    refine ⟨h1, ?_⟩
    cases heo : b.endOff with
    | some e =>
      rw [heo] at h2
      exact ⟨h2.1, ih _ h2.2 (fun x hx => hall x (List.mem_cons_of_mem b hx))⟩
    | none =>
      have := hall b (List.mem_cons_self b rest)
      rw [heo] at this
      simp at this

theorem chained_close_last (front : List BurstRec) (st lb ub : Nat)
    (h : Chained lb (front ++ [⟨st, none⟩]) ub) :
    Chained lb (front ++ [⟨st, some ub⟩]) ub := by
  induction front generalizing lb with
  | nil =>
    simp only [Chained, List.nil_append] at h ⊢
    exact ⟨h.1, h.2.2, le_refl _⟩
  | cons a rest ih =>
    simp only [Chained, List.cons_append] at h ⊢
    obtain ⟨h1, h2⟩ := h
    refine ⟨h1, ?_⟩
    cases heo : a.endOff with
    | some e =>
      rw [heo] at h2
      exact ⟨h2.1, ih _ h2.2⟩
    | none =>
      rw [heo] at h2
      exact absurd h2.1 (by simp)

theorem chained_lb_le (lb ub : Nat) (bs : List BurstRec) (h : Chained lb bs ub) :
    ∀ b ∈ bs, lb ≤ b.startOff := by
  induction bs generalizing lb with
  | nil => simp
  | cons a rest ih =>
    intro b hb
    simp only [Chained] at h
    obtain ⟨h1, h2⟩ := h
    rcases List.mem_cons.mp hb with rfl | hmem
    · exact h1
    · cases heo : a.endOff with
      | some e =>
        rw [heo] at h2
        exact le_trans (le_trans h1 h2.1) (ih _ h2.2 b hmem)
      | none =>
        rw [heo] at h2
        rw [h2.1] at hmem
        simp at hmem

theorem chained_pairwise_start (lb ub : Nat) (bs : List BurstRec) (h : Chained lb bs ub) :
    bs.Pairwise (fun a b => a.startOff ≤ b.startOff) := by
  induction bs generalizing lb with
  | nil => simp
  | cons a rest ih =>
    simp only [Chained] at h
    obtain ⟨h1, h2⟩ := h
    cases heo : a.endOff with
    | some e =>
      rw [heo] at h2
      refine List.Pairwise.cons (fun b hb => ?_) (ih _ h2.2)
      exact le_trans h2.1 (chained_lb_le _ _ _ h2.2 b hb)
    | none =>
      rw [heo] at h2
      rw [h2.1]
      simp

theorem chained_pairwise_end_start (lb ub : Nat) (bs : List BurstRec) (h : Chained lb bs ub) :
    bs.Pairwise (fun a b => ∀ ea, a.endOff = some ea → ea ≤ b.startOff) := by
  induction bs generalizing lb with
  | nil => simp
  | cons a rest ih =>
    simp only [Chained] at h
    obtain ⟨h1, h2⟩ := h
    cases heo : a.endOff with
    | some e =>
      rw [heo] at h2
      refine List.Pairwise.cons (fun b hb ea hea => ?_) (ih _ h2.2)
      rw [heo] at hea
      cases hea
      exact chained_lb_le _ _ _ h2.2 b hb
    | none =>
      rw [heo] at h2
      rw [h2.1]
      refine List.Pairwise.cons (fun b hb ea hea => ?_) (by simp)
      simp at hb

theorem chained_closed_le (lb ub : Nat) (bs : List BurstRec) (h : Chained lb bs ub) :
    ∀ b ∈ bs, ∀ e, b.endOff = some e → b.startOff ≤ e := by
  induction bs generalizing lb with
  | nil => simp
  | cons a rest ih =>
    intro b hb e he
    simp only [Chained] at h
    obtain ⟨h1, h2⟩ := h
    rcases List.mem_cons.mp hb with rfl | hmem
    · cases heo : b.endOff with
      | some e2 =>
        rw [heo] at h2 he
        cases he
        exact h2.1
      | none =>
        rw [heo] at he
        cases he
    · cases heo : a.endOff with
      | some e2 =>
        rw [heo] at h2
        exact ih _ h2.2 b hmem e he
      | none =>
        rw [heo] at h2
        rw [h2.1] at hmem
        simp at hmem

theorem chained_atMostOne (lb ub : Nat) (bs : List BurstRec) (h : Chained lb bs ub) :
    ((bs.filter fun b => b.endOff == none).length) ≤ 1 := by
  induction bs generalizing lb with
  | nil => simp
  | cons a rest ih =>
    simp only [Chained] at h
    obtain ⟨h1, h2⟩ := h
    cases heo : a.endOff with
    | some e =>
      rw [heo] at h2
      simpa [List.filter, heo] using ih _ h2.2
    | none =>
      rw [heo] at h2
      rw [h2.1]
      simp [List.filter, heo]

theorem trInv_init : TrInv trInit := by
  refine ⟨rfl, ?_, ?_, ?_⟩
  · simp [trInit, Chained]
  · intro i hi
    simp [trInit] at hi
  · intro _ b hb
    simp [trInit] at hb

theorem trInv_step (s : TrState) (e : TrEv) (h : TrInv s) : TrInv (trStep s e) := by
  obtain ⟨hfc, hch, hopen, hnone⟩ := h
  cases e with
  | frame =>
    simp only [trStep]
    by_cases ht : s.trackOpen
    · rw [if_pos ht]
      exact ⟨by simp [hfc], chained_mono _ _ _ _ hch (Nat.le_succ _), hopen, hnone⟩
    · rw [if_neg ht]
      exact ⟨hfc, hch, hopen, hnone⟩
  | speakStart =>
    cases hsb : s.openB with
    | some i =>
      have : trStep s .speakStart = s := by simp [trStep, hsb]
      rw [this]
      exact ⟨hfc, hch, hopen, hnone⟩
    | none =>
      have hall := hnone hsb
      by_cases ht : s.trackOpen
      · have : trStep s .speakStart =
            { s with bursts := s.bursts ++ [⟨s.frameCount, none⟩],
                     openB := some s.bursts.length } := by
          simp [trStep, hsb, ht]
        rw [this]
        refine ⟨hfc, chained_append_open _ _ _ hch hall, ?_, ?_⟩
        · intro i hi
          simp only [Option.some.injEq] at hi
          exact ⟨ht, s.bursts, s.frameCount, rfl, hi.symm, hall⟩
        · intro hcon
          simp at hcon
      · have : trStep s .speakStart = s := by simp [trStep, hsb, ht]
        rw [this]
        exact ⟨hfc, hch, hopen, hnone⟩
  | speakEnd =>
    cases hsb : s.openB with
    | none =>
      have : trStep s .speakEnd = s := by simp [trStep, hsb]
      rw [this]
      exact ⟨hfc, hch, hopen, hnone⟩
    | some i =>
      obtain ⟨ht, front, st, hbs, hieq, hfront⟩ := hopen i hsb
      subst hieq
      have : trStep s .speakEnd =
          { s with bursts := front ++ [⟨st, some s.frameCount⟩], openB := none } := by
        simp [trStep, hsb, ht, hbs, closeRecAt_last]
      rw [this]
      rw [hbs] at hch
      refine ⟨hfc, chained_close_last _ _ _ _ hch, ?_, ?_⟩
      · intro j hj
        simp at hj
      · intro _ b hb
        rcases List.mem_append.mp hb with hmem | hmem
        · exact hfront b hmem
        · simp only [List.mem_singleton] at hmem
          rw [hmem]
          rfl
  | guard =>
    cases hsb : s.openB with
    | none =>
      have : trStep s .guard = s := by simp [trStep, hsb]
      rw [this]
      exact ⟨hfc, hch, hopen, hnone⟩
    | some i =>
      obtain ⟨ht, front, st, hbs, hieq, hfront⟩ := hopen i hsb
      subst hieq
      have hclosed : ∀ b ∈ front ++ [(⟨st, some s.frameCount⟩ : BurstRec)], b.endOff.isSome := by
        intro b hb
        rcases List.mem_append.mp hb with hmem | hmem
        · exact hfront b hmem
        · simp only [List.mem_singleton] at hmem
          rw [hmem]
          rfl
      have : trStep s .guard =
          { s with
            bursts := (front ++ [(⟨st, some s.frameCount⟩ : BurstRec)]) ++ [⟨s.frameCount, none⟩],
            openB := some (front ++ [(⟨st, some s.frameCount⟩ : BurstRec)]).length } := by
        simp [trStep, hsb, ht, hbs, closeRecAt_last]
      rw [this]
      rw [hbs] at hch
      refine ⟨hfc, chained_append_open _ _ _ (chained_close_last _ _ _ _ hch) hclosed, ?_, ?_⟩
      · intro j hj
        simp only [Option.some.injEq] at hj
        exact ⟨ht, front ++ [⟨st, some s.frameCount⟩], s.frameCount, rfl, hj.symm, hclosed⟩
      · intro hcon
        simp at hcon
  | teardown =>
    cases hsb : s.openB with
    | none =>
      have : trStep s .teardown = { s with trackOpen := false } := by
        simp [trStep, hsb]
      rw [this]
      exact ⟨hfc, hch, fun i hi => by simp [hsb] at hi, fun _ => hnone hsb⟩
    | some i =>
      obtain ⟨ht, front, st, hbs, hieq, hfront⟩ := hopen i hsb
      subst hieq
      have : trStep s .teardown =
          { s with bursts := front ++ [⟨st, some s.frameCount⟩], openB := none,
                   trackOpen := false } := by
        simp [trStep, hsb, ht, hbs, closeRecAt_last]
      rw [this]
      rw [hbs] at hch
      refine ⟨hfc, chained_close_last _ _ _ _ hch, ?_, ?_⟩
      · intro j hj
        simp at hj
      · intro _ b hb
        rcases List.mem_append.mp hb with hmem | hmem
        · exact hfront b hmem
        · simp only [List.mem_singleton] at hmem
          rw [hmem]
          rfl

theorem trInv_foldl (evs : List TrEv) (s : TrState) (h : TrInv s) :
    TrInv (evs.foldl trStep s) := by
  induction evs generalizing s with
  | nil => exact h
  | cons e rest ih => exact ih _ (trInv_step s e h)

theorem trInv_run (evs : List TrEv) : TrInv (trRun evs) :=
  trInv_foldl evs trInit trInv_init

/-- C1: over every event sequence a track can see (accepted frames,
speaking start/end, the max-duration guard, teardown), the frame counter
equals the number of accepted frames; at most one burst is open; every
closed burst has `start_frame_offset ≤ end_frame_offset`; starts are
non-decreasing across the track's bursts in start (creation) order; and
closed `[start, end)` ranges of distinct bursts do not overlap (each
earlier burst's end is at most each later burst's start). -/
theorem claim_C1 (evs : List TrEv) :
    (trRun evs).frameCount = (trRun evs).accepted ∧
    (((trRun evs).bursts.filter fun b => b.endOff == none).length) ≤ 1 ∧
    (∀ b ∈ (trRun evs).bursts, ∀ e, b.endOff = some e → b.startOff ≤ e) ∧
    ((trRun evs).bursts.Pairwise fun a b => a.startOff ≤ b.startOff) ∧
    ((trRun evs).bursts.Pairwise fun a b => ∀ ea, a.endOff = some ea → ea ≤ b.startOff) := by
  obtain ⟨h1, h2, _⟩ := trInv_run evs
  exact ⟨h1, chained_atMostOne _ _ _ h2, chained_closed_le _ _ _ h2,
    chained_pairwise_start _ _ _ h2, chained_pairwise_end_start _ _ _ h2⟩

/-! ## VAD gate stream-lifecycle invariants -/

theorem closeStreamIn_map_fst (l : List (Nat × Bool)) (i : Nat) :
    (closeStreamIn l i).map Prod.fst = l.map Prod.fst := by
  simp only [closeStreamIn, List.map_map]
  congr 1
  funext e
  simp only [Function.comp_apply]
  split <;> rfl

theorem mem_closeStreamIn_open (l : List (Nat × Bool)) (i : Nat) (e : Nat × Bool)
    (he : e ∈ closeStreamIn l i) (hop : e.2 = true) : e ∈ l ∧ e.1 ≠ i := by
  simp only [closeStreamIn, List.mem_map] at he
  obtain ⟨a, ha, hae⟩ := he
  by_cases h : a.1 == i
  · rw [if_pos h] at hae
    rw [← hae] at hop
    simp at hop
  · rw [if_neg h] at hae
    subst hae
    exact ⟨ha, by simpa using h⟩

theorem streamOpen_of_mem (l : List (Nat × Bool)) (e : Nat × Bool)
    (he : e ∈ l) (hop : e.2 = true) : streamOpen l e.1 = true := by
  simp only [streamOpen, List.any_eq_true]
  exact ⟨e, he, by simp [hop]⟩

theorem streamOpen_closeStreamIn_self (l : List (Nat × Bool)) (i : Nat) :
    streamOpen (closeStreamIn l i) i = false := by
  by_contra hcon
  rw [Bool.not_eq_false] at hcon
  simp only [streamOpen, List.any_eq_true] at hcon
  obtain ⟨e, he, hpe⟩ := hcon
  simp only [Bool.and_eq_true, beq_iff_eq] at hpe
  obtain ⟨hei, hop⟩ := hpe
  obtain ⟨_, hne⟩ := mem_closeStreamIn_open l i e he hop
  exact hne hei

theorem openCount_zero (l : List (Nat × Bool)) (a : Nat)
    (h : ∀ e ∈ l, e.2 = true → e.1 = a) (ha : a ∉ l.map Prod.fst) :
    (l.filter fun e => e.2).length = 0 := by
  induction l with
  | nil => rfl
  | cons x t ih =>
    simp only [List.map_cons, List.mem_cons] at ha
    push_neg at ha
    by_cases hx : x.2 = true
    · exact absurd (h x (List.mem_cons_self _ _) hx).symm ha.1
    · rw [List.filter_cons, if_neg hx]
      exact ih (fun e he hee => h e (List.mem_cons_of_mem _ he) hee) ha.2

theorem openCount_le_one (l : List (Nat × Bool)) (a : Nat)
    (h : ∀ e ∈ l, e.2 = true → e.1 = a) (hnd : (l.map Prod.fst).Nodup) :
    (l.filter fun e => e.2).length ≤ 1 := by
  induction l with
  | nil => simp
  | cons x t ih =>
    simp only [List.map_cons, List.nodup_cons] at hnd
    by_cases hx : x.2 = true
    · have hxa : x.1 = a := h x (List.mem_cons_self _ _) hx
      have hz : (t.filter fun e => e.2).length = 0 :=
        openCount_zero t a (fun e he hee => h e (List.mem_cons_of_mem _ he) hee)
          (hxa ▸ hnd.1)
      rw [List.filter_cons, if_pos hx, List.length_cons, hz]
    · rw [List.filter_cons, if_neg hx]
      exact ih (fun e he hee => h e (List.mem_cons_of_mem _ he) hee) hnd.2

theorem openCount_le_two (l : List (Nat × Bool)) (a b : Nat)
    (h : ∀ e ∈ l, e.2 = true → e.1 = a ∨ e.1 = b) (hnd : (l.map Prod.fst).Nodup) :
    (l.filter fun e => e.2).length ≤ 2 := by
  induction l with
  | nil => simp
  | cons x t ih =>
    simp only [List.map_cons, List.nodup_cons] at hnd
    by_cases hx : x.2 = true
    · have hone : (t.filter fun e => e.2).length ≤ 1 := by
        rcases h x (List.mem_cons_self _ _) hx with hxa | hxb
        · refine openCount_le_one t b (fun e he hee => ?_) hnd.2
          rcases h e (List.mem_cons_of_mem _ he) hee with hea | heb
          · exact absurd (by rw [hxa, ← hea]; exact List.mem_map_of_mem Prod.fst he)
              hnd.1
          · exact heb
        · refine openCount_le_one t a (fun e he hee => ?_) hnd.2
          rcases h e (List.mem_cons_of_mem _ he) hee with hea | heb
          · exact hea
          · exact absurd (by rw [hxb, ← heb]; exact List.mem_map_of_mem Prod.fst he)
              hnd.1
      rw [List.filter_cons, if_pos hx, List.length_cons]
      omega
    · rw [List.filter_cons, if_neg hx]
      exact le_trans (ih (fun e he hee => h e (List.mem_cons_of_mem _ he) hee) hnd.2)
        (by omega)

theorem gInv_init : GInv gInit := by
  refine ⟨?_, ?_, ?_⟩ <;> simp [gInit, GInv]

theorem gInv_openNewStream (s : GState) (h : GInv s)
    (hno : refOpen s s.current = false) : GInv (openNewStream s) := by
  obtain ⟨h1, h2, h3⟩ := h
  refine ⟨?_, ?_, ?_⟩
  · intro e he hop
    rcases List.mem_cons.mp he with rfl | hmem
    · exact Or.inl rfl
    · rcases h1 e hmem hop with hc | hr
      · exfalso
        cases hcur : s.current with
        | none => rw [hcur] at hc; cases hc
        | some i =>
          rw [hcur] at hc
          have hi : e.1 = i := Option.some.inj hc
          rw [hcur] at hno
          simp only [refOpen] at hno
          have := streamOpen_of_mem s.streams e hmem hop
          rw [hi] at this
          rw [this] at hno
          cases hno
      · exact Or.inr hr
  · simp only [openNewStream, List.map_cons, List.nodup_cons]
    refine ⟨fun hmem => ?_, h2⟩
    simp only [List.mem_map] at hmem
    obtain ⟨e, he, hfst⟩ := hmem
    have := h3 e he
    omega
  · intro e he
    rcases List.mem_cons.mp he with rfl | hmem
    · simp [openNewStream]
    · exact le_trans (h3 e hmem) (Nat.le_succ _)

theorem fst_le_of_mem_close (l : List (Nat × Bool)) (i bound : Nat)
    (h3 : ∀ e ∈ l, e.1 ≤ bound) : ∀ e ∈ closeStreamIn l i, e.1 ≤ bound := by
  intro e he
  have : e.1 ∈ (closeStreamIn l i).map Prod.fst := List.mem_map_of_mem _ he
  rw [closeStreamIn_map_fst] at this
  obtain ⟨a, ha, hfst⟩ := List.mem_map.mp this
  rw [← hfst]
  exact h3 a ha

theorem gInv_step (s : GState) (e : GEv) (h : GInv s) : GInv (gStep s e) := by
  obtain ⟨h1, h2, h3⟩ := h
  cases e with
  | speakStartEv t =>
    simp only [gStep]
    split
    · exact ⟨h1, h2, h3⟩
    · next hno => exact gInv_openNewStream _ ⟨h1, h2, h3⟩ (by simpa using hno)
  | speakEndEv => exact ⟨h1, h2, h3⟩
  | openNew =>
    simp only [gStep]
    split
    · exact ⟨h1, h2, h3⟩
    · next hno => exact gInv_openNewStream _ ⟨h1, h2, h3⟩ (by simpa using hno)
  | rotate =>
    simp only [gStep]
    split
    · next hro =>
      have hmapeq : (match s.rotating with
          | some j => closeStreamIn s.streams j
          | none => s.streams).map Prod.fst = s.streams.map Prod.fst := by
        cases s.rotating with
        | some j => exact closeStreamIn_map_fst _ _
        | none => rfl
      refine ⟨?_, ?_, ?_⟩
      · intro e he hop
        rcases List.mem_cons.mp he with rfl | hmem
        · exact Or.inl rfl
        · have hmem' : e ∈ s.streams ∧ ∀ j, s.rotating = some j → e.1 ≠ j := by
            cases hrot : s.rotating with
            | none =>
              rw [hrot] at hmem
              exact ⟨hmem, fun j hj => by simp at hj⟩
            | some j =>
              rw [hrot] at hmem
              obtain ⟨hin, hne⟩ := mem_closeStreamIn_open _ _ _ hmem hop
              exact ⟨hin, fun j' hj' => by rw [← Option.some.inj hj']; exact hne⟩
          rcases h1 e hmem'.1 hop with hc | hr
          · exact Or.inr hc
          · exfalso
            cases hrot : s.rotating with
            | none => rw [hrot] at hr; cases hr
            | some j =>
              rw [hrot] at hr
              exact absurd (Option.some.inj hr) (hmem'.2 j hrot)
      · simp only [List.map_cons, List.nodup_cons]
        refine ⟨fun hmem => ?_, by rw [hmapeq]; exact h2⟩
        rw [hmapeq] at hmem
        obtain ⟨a, ha, hfst⟩ := List.mem_map.mp hmem
        have := h3 a ha
        omega
      · intro e he
        rcases List.mem_cons.mp he with rfl | hmem
        · exact le_refl _
        · have : e.1 ∈ s.streams.map Prod.fst := by
            rw [← hmapeq]
            exact List.mem_map_of_mem _ hmem
          obtain ⟨a, ha, hfst⟩ := List.mem_map.mp this
          rw [← hfst]
          exact le_trans (h3 a ha) (Nat.le_succ _)
    · exact ⟨h1, h2, h3⟩
  | overlapExpire =>
    cases hrot : s.rotating with
    | none =>
      simp only [gStep, hrot]
      exact ⟨h1, h2, h3⟩
    | some j =>
      simp only [gStep, hrot]
      refine ⟨?_, ?_, ?_⟩
      · intro e he hop
        obtain ⟨hin, hne⟩ := mem_closeStreamIn_open _ _ _ he hop
        rcases h1 e hin hop with hc | hr
        · exact Or.inl hc
        · rw [hrot] at hr
          exact absurd (Option.some.inj hr) hne
      · rw [closeStreamIn_map_fst]
        exact h2
      · exact fst_le_of_mem_close _ _ _ h3
  | closeCurrent =>
    cases hcur : s.current with
    | none =>
      simp only [gStep, hcur]
      exact ⟨h1, h2, h3⟩
    | some i =>
      simp only [gStep, hcur]
      refine ⟨?_, ?_, ?_⟩
      · intro e he hop
        obtain ⟨hin, hne⟩ := mem_closeStreamIn_open _ _ _ he hop
        rcases h1 e hin hop with hc | hr
        · rw [hcur] at hc
          exact absurd (Option.some.inj hc) hne
        · exact Or.inr hr
      · rw [closeStreamIn_map_fst]
        exact h2
      · exact fst_le_of_mem_close _ _ _ h3
  | backendClose i =>
    simp only [gStep]
    refine ⟨?_, ?_, ?_⟩
    · intro e he hop
      obtain ⟨hin, _⟩ := mem_closeStreamIn_open _ _ _ he hop
      exact h1 e hin hop
    · rw [closeStreamIn_map_fst]
      exact h2
    · exact fst_le_of_mem_close _ _ _ h3
  | destroyEv =>
    cases hcur : s.current with
    | none =>
      cases hrot : s.rotating with
      | none =>
        simp only [gStep, destroyG, hcur, hrot]
        refine ⟨?_, h2, h3⟩
        intro e he hop
        rcases h1 e he hop with hc | hr
        · rw [hcur] at hc; cases hc
        · rw [hrot] at hr; cases hr
      | some j =>
        simp only [gStep, destroyG, hcur, hrot]
        refine ⟨?_, ?_, ?_⟩
        · intro e he hop
          obtain ⟨hin, hne⟩ := mem_closeStreamIn_open _ _ _ he hop
          rcases h1 e hin hop with hc | hr
          · rw [hcur] at hc; cases hc
          · rw [hrot] at hr
            exact absurd (Option.some.inj hr) hne
        · rw [closeStreamIn_map_fst]
          exact h2
        · exact fst_le_of_mem_close _ _ _ h3
    | some i =>
      cases hrot : s.rotating with
      | none =>
        simp only [gStep, destroyG, hcur, hrot]
        refine ⟨?_, ?_, ?_⟩
        · intro e he hop
          obtain ⟨hin, hne⟩ := mem_closeStreamIn_open _ _ _ he hop
          rcases h1 e hin hop with hc | hr
          · rw [hcur] at hc
            exact absurd (Option.some.inj hc) hne
          · rw [hrot] at hr; cases hr
        · rw [closeStreamIn_map_fst]
          exact h2
        · exact fst_le_of_mem_close _ _ _ h3
      | some j =>
        simp only [gStep, destroyG, hcur, hrot]
        refine ⟨?_, ?_, ?_⟩
        · intro e he hop
          obtain ⟨hin1, hnej⟩ := mem_closeStreamIn_open _ _ _ he hop
          obtain ⟨hin, hnei⟩ := mem_closeStreamIn_open _ _ _ hin1 hop
          rcases h1 e hin hop with hc | hr
          · rw [hcur] at hc
            exact absurd (Option.some.inj hc) hnei
          · rw [hrot] at hr
            exact absurd (Option.some.inj hr) hnej
        · rw [closeStreamIn_map_fst, closeStreamIn_map_fst]
          exact h2
        · exact fst_le_of_mem_close _ _ _ (fst_le_of_mem_close _ _ _ h3)

theorem gInv_foldl (evs : List GEv) (s : GState) (h : GInv s) :
    GInv (evs.foldl gStep s) := by
  induction evs generalizing s with
  | nil => exact h
  | cons e rest ih => exact ih _ (gInv_step s e h)

theorem gInv_run (evs : List GEv) : GInv (gRun evs) :=
  gInv_foldl evs gInit gInv_init

/-- C5: over every event sequence a gate can see, at most two of the
streams it has created are open at once (the current and the rotating
one); and when a rotation is requested while a previous overlap window is
still active (the rotating stream `j` still open) with an open current
stream, the step closes stream `j` and the rotating reference moves to
the old current stream — retired streams never accumulate. -/
theorem claim_C5 (evs : List GEv) (j : Nat)
    (h1 : (gRun evs).rotating = some j)
    (h2 : streamOpen (gRun evs).streams j = true)
    (h3 : refOpen (gRun evs) (gRun evs).current = true) :
    (((gRun evs).streams.filter fun e => e.2).length ≤ 2) ∧
    streamOpen (gStep (gRun evs) .rotate).streams j = false ∧
    (gStep (gRun evs) .rotate).rotating = (gRun evs).current := by
  obtain ⟨hinv1, hinv2, hinv3⟩ := gInv_run evs
  refine ⟨?_, ?_, ?_⟩
  · cases hcur : (gRun evs).current with
    | none =>
      cases hrot : (gRun evs).rotating with
      | none =>
        refine openCount_le_one _ 0 (fun e he hop => ?_) hinv2 |>.trans (by omega)
        rcases hinv1 e he hop with hc | hr
        · rw [hcur] at hc; cases hc
        · rw [hrot] at hr; cases hr
      | some b =>
        refine openCount_le_one _ b (fun e he hop => ?_) hinv2 |>.trans (by omega)
        rcases hinv1 e he hop with hc | hr
        · rw [hcur] at hc; cases hc
        · rw [hrot] at hr; exact Option.some.inj hr
    | some a =>
      cases hrot : (gRun evs).rotating with
      | none =>
        refine openCount_le_one _ a (fun e he hop => ?_) hinv2 |>.trans (by omega)
        rcases hinv1 e he hop with hc | hr
        · rw [hcur] at hc; exact Option.some.inj hc
        · rw [hrot] at hr; cases hr
      | some b =>
        refine openCount_le_two _ a b (fun e he hop => ?_) hinv2
        rcases hinv1 e he hop with hc | hr
        · rw [hcur] at hc; exact Or.inl (Option.some.inj hc)
        · rw [hrot] at hr; exact Or.inr (Option.some.inj hr)
  · have hjle : j ≤ (gRun evs).seq := by
      simp only [streamOpen, List.any_eq_true] at h2
      obtain ⟨e, he, hpe⟩ := h2
      simp only [Bool.and_eq_true, beq_iff_eq] at hpe
      rw [← hpe.1]
      exact hinv3 e he
    simp only [gStep, h3, if_true, h1]
    simp only [streamOpen, List.any_cons]
    have hne : (((gRun evs).seq + 1 : Nat) == j) = false := by
      simp only [beq_eq_false_iff_ne, ne_eq]
      omega
    simp only [hne, Bool.false_and, Bool.false_or]
    exact streamOpen_closeStreamIn_self _ _
  · simp only [gStep, h3, if_true]

/-- C5 witness: speech opens stream 1, a first rotation makes it the
rotating stream with current stream 2; a second rotation while stream 1
is still open closes it. -/
theorem claim_C5_witness :
    (gRun [GEv.speakStartEv 0, GEv.rotate]).rotating = some 1 ∧
    streamOpen (gRun [GEv.speakStartEv 0, GEv.rotate]).streams 1 = true ∧
    streamOpen (gStep (gRun [GEv.speakStartEv 0, GEv.rotate]) GEv.rotate).streams 1 = false :=
  ⟨by decide, by decide,
   (claim_C5 [GEv.speakStartEv 0, GEv.rotate] 1 (by decide) (by decide) (by decide)).2.1⟩

/-! ## Page checksum -/

theorem crcShiftStep_lt (c : Nat) : crcShiftStep c < 2 ^ 32 := by
  unfold crcShiftStep
  split
  · exact Nat.xor_lt_two_pow (Nat.mod_lt _ (by norm_num)) (by norm_num [OGG_POLY])
  · exact Nat.mod_lt _ (by norm_num)

theorem crcShiftStep_iterate_lt (n : Nat) (c : Nat) (h : c < 2 ^ 32) :
    crcShiftStep^[n] c < 2 ^ 32 := by
  induction n generalizing c with
  | zero => exact h
  | succ k ih =>
    rw [Function.iterate_succ_apply]
    exact ih _ (crcShiftStep_lt c)

theorem crcTableEntry_lt (i : Nat) : crcTableEntry i < 2 ^ 32 := by
  unfold crcTableEntry
  refine crcShiftStep_iterate_lt 8 _ ?_
  exact lt_of_le_of_lt
    (Nat.mul_le_mul_right _ (by omega : i % 256 ≤ 255)) (by norm_num)

theorem crcByteStep_lt (c b : Nat) : crcByteStep c b < 2 ^ 32 :=
  Nat.xor_lt_two_pow (crcTableEntry_lt _) (Nat.mod_lt _ (by norm_num))

theorem ogg_crc32_lt (bytes : List Nat) : ogg_crc32 bytes < 2 ^ 32 := by
  have key : ∀ (l : List Nat) (acc : Nat), acc < 2 ^ 32 →
      l.foldl crcByteStep acc < 2 ^ 32 := by
    intro l
    induction l with
    | nil => intro acc h; exact h
    | cons x t ih =>
      intro acc _
      exact ih _ (crcByteStep_lt acc x)
  exact key bytes 0 (by norm_num)

theorem pageHeaderPre_length (ht g sn sq : Nat) :
    (pageHeaderPre ht g sn sq).length = 22 := by
  simp [pageHeaderPre, le64, le32]

theorem segTableAux_length (n : Nat) : ∀ r, (segTableAux n r).length = n := by
  induction n with
  | zero => intro r; rfl
  | succ k ih =>
    intro r
    unfold segTableAux
    split <;> simp [ih]

theorem pageHeader_length (ht g sn sq crc dataLen : Nat) :
    (pageHeader ht g sn sq crc dataLen).length = 27 + segCount dataLen := by
  simp only [pageHeader, List.length_append, pageHeaderPre_length, segTable,
    segTableAux_length, le32, List.length_cons, List.length_nil]

theorem readLE32_le32_append (n : Nat) (rest : List Nat) (h : n < 2 ^ 32) :
    readLE32 (le32 n ++ rest) = n := by
  simp only [le32, List.cons_append, List.nil_append, readLE32]
  omega

theorem le32_zero : le32 0 = [0, 0, 0, 0] := by
  simp [le32]

theorem zeroCrcField_pageHeader (ht g sn sq crc dataLen : Nat) :
    zeroCrcField (pageHeader ht g sn sq crc dataLen) = pageHeader ht g sn sq 0 dataLen := by
  have h22 : (pageHeaderPre ht g sn sq).length = 22 := pageHeaderPre_length ht g sn sq
  have h26 : (pageHeaderPre ht g sn sq ++ le32 crc).length = 26 := by
    simp [h22, le32]
  have htake : (pageHeader ht g sn sq crc dataLen).take 22 = pageHeaderPre ht g sn sq := by
    rw [show pageHeader ht g sn sq crc dataLen =
        pageHeaderPre ht g sn sq ++
          (le32 crc ++ ([segCount dataLen] ++ segTable dataLen)) by
      simp [pageHeader, List.append_assoc]]
    exact List.take_left' h22
  have hdrop : (pageHeader ht g sn sq crc dataLen).drop 26 =
      [segCount dataLen] ++ segTable dataLen := by
    rw [show pageHeader ht g sn sq crc dataLen =
        (pageHeaderPre ht g sn sq ++ le32 crc) ++
          ([segCount dataLen] ++ segTable dataLen) by
      simp [pageHeader, List.append_assoc]]
    exact List.drop_left' h26
  rw [zeroCrcField, htake, hdrop, show ([0, 0, 0, 0] : List Nat) = le32 0 from le32_zero.symm]
  simp [pageHeader, List.append_assoc]

/-- C8: every page the muxer writes carries, in its checksum field (bytes
22–25, little-endian), the OGG CRC-32 (polynomial 0x04C11DB7) of the
page header with the checksum field zeroed, concatenated with the
payload. -/
theorem claim_C8 (data : List Nat) (ht g sn sq : Nat) :
    readLE32 ((writePageBytes data ht g sn sq).drop 22) =
      ogg_crc32
        (zeroCrcField ((writePageBytes data ht g sn sq).take (27 + segCount data.length)) ++
          data) := by
  have h22 : (pageHeaderPre ht g sn sq).length = 22 := pageHeaderPre_length ht g sn sq
  have hwp : writePageBytes data ht g sn sq =
      pageHeader ht g sn sq
        (ogg_crc32 (pageHeader ht g sn sq 0 data.length ++ data)) data.length ++ data := rfl
  have hlen : (pageHeader ht g sn sq
      (ogg_crc32 (pageHeader ht g sn sq 0 data.length ++ data)) data.length).length =
      27 + segCount data.length := pageHeader_length _ _ _ _ _ _
  have htake : (writePageBytes data ht g sn sq).take (27 + segCount data.length) =
      pageHeader ht g sn sq
        (ogg_crc32 (pageHeader ht g sn sq 0 data.length ++ data)) data.length := by
    rw [hwp]
    exact List.take_left' hlen
  have hdrop : (writePageBytes data ht g sn sq).drop 22 =
      le32 (ogg_crc32 (pageHeader ht g sn sq 0 data.length ++ data)) ++
        ([segCount data.length] ++ segTable data.length ++ data) := by
    rw [hwp, show pageHeader ht g sn sq
        (ogg_crc32 (pageHeader ht g sn sq 0 data.length ++ data)) data.length ++ data =
        pageHeaderPre ht g sn sq ++
          (le32 (ogg_crc32 (pageHeader ht g sn sq 0 data.length ++ data)) ++
            ([segCount data.length] ++ segTable data.length ++ data)) by
      simp [pageHeader, List.append_assoc]]
    exact List.drop_left' h22
  rw [htake, hdrop, zeroCrcField_pageHeader,
    readLE32_le32_append _ _ (ogg_crc32_lt _)]

end Magi
